import Mathlib

/-!
Verification of the interactive dataflow server core
(`src/materialize/dataflow/server.rs`): the per-worker command loop,
peek sequencing and peek retirement.

Machine integers: `u64` values are modelled as `Nat` with explicit
`% 2 ^ 64` where the code performs arithmetic that can overflow;
`saturating_sub 1` on `u64` coincides with truncated `Nat` subtraction.
Fallible code (panics via `expect`, `unwrap`, `assert!`, `unreachable!`,
`unimplemented!`) is modelled with `Option`: `none` means the worker
panics.  Registries (`HashMap`) are modelled as association lists;
equality of association lists refines equality of the maps.
-/

set_option autoImplicit false

namespace Materialize

/-- `2 ^ 64`, the modulus of `u64` arithmetic. -/
abbrev u64Mod : Nat := 2 ^ 64

/-- `u64::max_value()`. -/
abbrev u64Max : Nat := 2 ^ 64 - 1

/-- `Timestamp = u64` (`crate::dataflow::Timestamp`). -/
abbrev Timestamp := Nat

/-- A row of data (`Vec<Datum>`); datums are modelled as strings, the only
datum shape the server core itself constructs (the bootstrap row `["X"]`). -/
abbrev Row := List String

/-- The `isize` difference type of the arrangement. -/
abbrev Diff := Int

/-! ### Association-list registries -/

section AList

variable {κ : Type} {ν : Type} [DecidableEq κ]

/-- Lookup in an association list (`HashMap::get`). -/
def alookup (k : κ) : List (κ × ν) → Option ν
  | [] => none
  | (k', v) :: l => if k' = k then some v else alookup k l

/-- Remove a key (`HashMap::remove`); total, a no-op when absent. -/
def aremove (k : κ) (l : List (κ × ν)) : List (κ × ν) :=
  l.filter (fun p => decide (p.1 ≠ k))

/-- Insert a key (`HashMap::insert`): the new binding replaces any old one. -/
def ainsert (k : κ) (v : ν) (l : List (κ × ν)) : List (κ × ν) :=
  (k, v) :: aremove k l

/-- Modify the binding of a key in place (`HashMap::get_mut`). -/
def aupdate (k : κ) (f : ν → ν) : List (κ × ν) → List (κ × ν)
  | [] => []
  | (k', v) :: l => if k' = k then (k', f v) :: l else (k', v) :: aupdate k f l

end AList

/-! ### Data model

The types below come from the repository modules the server imports
(`super::RelationExpr`, `crate::dataflow::{Dataflow, View}`,
`super::render::InputCapability`, trace handles); those modules are not
part of the core source, so their shapes are modelled from the spec §3. -/

/-- Modelled from the spec: a relation type; only decidable equality of
types is used by the server (as part of the trace key). -/
abbrev RelationType := List String

/-- Modelled from the spec (§3): a relational expression, "sufficient to
name a relation (`Get{name, typ}`) or to describe a transient
computation"; only the `Get` shape is built or scrutinised by the server,
other expressions are opaque.  Equality of expressions is the trace
lookup key. -/
inductive RelationExpr where
  | Get (name : String) (typ : RelationType)
  | Opaque (id : Nat) (typ : RelationType)
deriving DecidableEq, Repr

/-- `RelationExpr::typ()`. -/
def RelationExpr.typ : RelationExpr → RelationType
  | .Get _ t => t
  | .Opaque _ t => t

/-- Modelled from the spec: the names a relational expression reads; a
`Get` reads the named relation, an opaque expression is closed.  This
feeds `View::uses()`. -/
def RelationExpr.usesNames : RelationExpr → List String
  | .Get n _ => [n]
  | .Opaque _ _ => []

/-- Modelled from the spec (§3): a source is "an externally or locally fed
input". -/
inductive SourceConnector where
  | Local
  | External
deriving DecidableEq, Repr

/-- Modelled from the spec: a `Source` dataflow description. -/
structure Source where
  name : String
  connector : SourceConnector
  typ : RelationType
deriving DecidableEq, Repr

/-- Modelled from the spec: a `View` dataflow description; `usesList` is
the value of `uses()`, the names of the relations the view reads. -/
structure View where
  name : String
  relation_expr : RelationExpr
  typ : RelationType
  usesList : List String
deriving DecidableEq, Repr

/-- Modelled from the spec: a `Sink` dataflow description. -/
structure Sink where
  name : String
  typ : RelationType
deriving DecidableEq, Repr

/-- Modelled from the spec (§3): a named, typed description of installed
work. -/
inductive Dataflow where
  | Source (s : Source)
  | View (v : View)
  | Sink (s : Sink)
deriving DecidableEq, Repr

/-- `Dataflow::name()`. -/
def Dataflow.name : Dataflow → String
  | .Source s => s.name
  | .View v => v.name
  | .Sink s => s.name

/-- `Dataflow::typ()`. -/
def Dataflow.typ : Dataflow → RelationType
  | .Source s => s.typ
  | .View v => v.typ
  | .Sink s => s.typ

/-- `Dataflow::uses()`: the names of the relations a view reads. -/
def Dataflow.uses : Dataflow → List String
  | .View v => v.usesList
  | _ => []

/-- Whether a dataflow is a `Sink` (the `if let Dataflow::Sink {..}`
pattern in the drop handler). -/
def Dataflow.isSink : Dataflow → Bool
  | .Sink _ => true
  | _ => false

/-- Modelled from the spec (§3): an input capability.  `Local` carries a
downgradable capability time and the session-emitted records
`(row, time, diff)`; `External` is read-only observation of a capability
driven elsewhere. -/
inductive InputCapability where
  | Local (capability : Timestamp) (session : List (Row × Timestamp × Diff))
  | External (capability : Timestamp)
deriving DecidableEq, Repr

/-- The current time of a capability (`capability.time()`). -/
def InputCapability.time : InputCapability → Timestamp
  | .Local t _ => t
  | .External t => t

/-- Modelled from the spec (§3): a trace handle exposes (a) the current
upper frontier and (b) a cursor over `(key, time, diff)` tuples, each key
visited once with all of its `(time, diff)` entries. -/
structure Trace where
  upper : List Timestamp
  entries : List (Row × List (Timestamp × Diff))
deriving DecidableEq, Repr

/-- A sequenced peek awaiting retirement (`PendingPeek`); the connection
uuid is modelled as a `Nat`. -/
structure PendingPeek where
  expr : RelationExpr
  connection_uuid : Nat
  timestamp : Timestamp
  drop_after_peek : Option Dataflow
deriving DecidableEq, Repr

/-- `PeekWhen` (`crate::glue`). -/
inductive PeekWhen where
  | Immediately
  | AfterFlush
  | AtTimestamp (t : Timestamp)
deriving DecidableEq, Repr

/-- `DataflowCommand` (`crate::glue`), as consumed by `handle_command`. -/
inductive DataflowCommand where
  | CreateDataflow (d : Dataflow)
  | DropDataflows (ds : List Dataflow)
  | PeekExisting (dataflow : Dataflow) (when : PeekWhen)
  | PeekTransient (relation_expr : RelationExpr) (when : PeekWhen)
  | Insert (name : String) (rows : List Row)
  | Tail
  | Shutdown
deriving DecidableEq, Repr

/-- `CommandMeta`. -/
structure CommandMeta where
  connection_uuid : Nat
deriving DecidableEq, Repr

/-- The per-worker state of `Worker` (`server.rs:100`).  The sequencer is
modelled as the stream of sequenced peeks this worker has yet to drain;
worker 0's `push` appends to it (the runtime broadcasts pushes to every
worker's stream in the same order). -/
structure WorkerState where
  index : Nat
  pending_peeks : List (PendingPeek × Trace)
  traces : List (RelationExpr × Trace)
  inputs : List (String × InputCapability)
  input_time : Timestamp
  transient_view_counter : Nat
  dataflows : List (String × Dataflow)
  sequencer : List PendingPeek
deriving DecidableEq, Repr

/-- `Worker::new` (`server.rs:121`): the initial per-worker state; both
counters start at `1` and all registries are empty. -/
def WorkerState.initial (index : Nat) : WorkerState :=
  { index := index, pending_peeks := [], traces := [], inputs := [],
    input_time := 1, transient_view_counter := 1, dataflows := [],
    sequencer := [] }

/-! ### The peek processor (`process_peeks`, `server.rs:340`) -/

/-- `Antichain::less_equal(t)`: some element of the frontier is `≤ t`. -/
def upperLE (upper : List Timestamp) (t : Timestamp) : Bool :=
  upper.any (fun u => decide (u ≤ t))

/-- The `copies` accumulation of `process_peeks` (`server.rs:383`): sum the
diffs of the entries whose time is `≤` the peek timestamp. -/
def accumCopies (t : Timestamp) (times : List (Timestamp × Diff)) : Diff :=
  (times.filter (fun p => decide (p.1 ≤ t))).foldl (fun acc p => acc + p.2) 0

/-- The result vector built by cursor iteration (`server.rs:375`): for each
key in order, `assert!(copies >= 0)` then push the key `copies` times.
`none` models the assertion panicking. -/
def peekResults (t : Timestamp) : List (Row × List (Timestamp × Diff)) → Option (List Row)
  | [] => some []
  | (key, times) :: rest =>
    let copies := accumCopies t times
    if copies < 0 then none
    else (peekResults t rest).map (fun res => List.replicate copies.toNat key ++ res)

/-- One pass of the retirement phase (`pending_peeks.retain`,
`server.rs:357`): an entry whose trace's upper frontier has an element
`≤` its timestamp is retained; otherwise its result is computed and
delivered (tagged with its connection uuid) and, when `drop_after_peek`
is set, its dataflow queued for dropping. -/
def retirePass :
    List (PendingPeek × Trace) →
    Option (List (PendingPeek × Trace) × List (Nat × List Row) × List Dataflow)
  | [] => some ([], [], [])
  | (peek, trace) :: rest =>
    if upperLE trace.upper peek.timestamp then
      (retirePass rest).map (fun (r, d, q) => ((peek, trace) :: r, d, q))
    else
      match peekResults peek.timestamp trace.entries with
      | none => none
      | some res =>
        (retirePass rest).map (fun (r, d, q) =>
          (r, (peek.connection_uuid, res) :: d,
            match peek.drop_after_peek with
            | some df => df :: q
            | none => q))

/-- The intake phase of `process_peeks` (`server.rs:342`): drain the
sequencer, resolving each peek's expression in the trace registry;
`unwrap` of a missing trace panics. -/
def intakePeeks (traces : List (RelationExpr × Trace)) :
    List PendingPeek → Option (List (PendingPeek × Trace))
  | [] => some []
  | p :: rest =>
    match alookup p.expr traces with
    | none => none
    | some tr => (intakePeeks traces rest).map (fun l => (p, tr) :: l)

/-! ### Peek sequencing (`sequence_peek`, `server.rs:268` and
`root_input_time`, `server.rs:323`) -/

/-- The timestamp chosen for `PeekWhen::Immediately` (`server.rs:287`):
`0` when the trace's upper frontier is empty, otherwise
`assert_eq!(upper.elements().len(), 1)` and `upper[0].saturating_sub(1)`. -/
def immediateTimestamp (upper : List Timestamp) : Option Timestamp :=
  match upper with
  | [] => some 0
  | [u] => some (u - 1)
  | _ => none

/-- `root_input_time` (`server.rs:323`): a `Source` reads its capability's
current time; a `View` takes the minimum over its `uses()`, an empty
minimum being `u64::max_value()`; a `Sink` is `unreachable!` and a name
absent from either registry panics (`HashMap` indexing).  The `fuel`
argument bounds the recursion depth, which Rust leaves unbounded. -/
def root_input_time (dataflows : List (String × Dataflow))
    (inputs : List (String × InputCapability)) : Nat → String → Option Timestamp
  | 0, _ => none
  | fuel + 1, name =>
    match alookup name dataflows with
    | none => none
    | some (.Source _) =>
      match alookup name inputs with
      | none => none
      | some cap => some cap.time
    | some (.Sink _) => none
    | some (.View v) =>
      (v.usesList.mapM (root_input_time dataflows inputs fuel)).map
        (fun times => (times.min?).getD u64Max)

/-- Specification-side companion of `root_input_time`: the capability
times of the `Source` inputs transitively reachable through `View`
`uses()` (with multiplicity, in traversal order), at the same fuel. -/
def sourceTimes (dataflows : List (String × Dataflow))
    (inputs : List (String × InputCapability)) : Nat → String → Option (List Timestamp)
  | 0, _ => none
  | fuel + 1, name =>
    match alookup name dataflows with
    | none => none
    | some (.Source _) =>
      match alookup name inputs with
      | none => none
      | some cap => some [cap.time]
    | some (.Sink _) => none
    | some (.View v) =>
      (v.usesList.mapM (sourceTimes dataflows inputs fuel)).map List.flatten

/-- `sequence_peek` (`server.rs:268`): on a worker other than 0 return at
once; on worker 0 choose the timestamp according to `when` and push a
`PendingPeek` carrying a fresh `Get{name, typ}` for the dataflow. -/
def sequence_peek (fuel : Nat) (w : WorkerState) (cmd_meta : CommandMeta)
    (dataflow : Dataflow) (when : PeekWhen) (drop : Bool) : Option WorkerState :=
  if w.index ≠ 0 then some w
  else
    let get := RelationExpr.Get dataflow.name dataflow.typ
    let ts? : Option Timestamp :=
      match when with
      | .Immediately =>
        match alookup get w.traces with
        | none => none
        | some trace => immediateTimestamp trace.upper
      | .AfterFlush =>
        (root_input_time w.dataflows w.inputs fuel dataflow.name).map (fun t => t - 1)
      | .AtTimestamp t => some t
    ts?.map (fun ts =>
      { w with
          sequencer := w.sequencer ++
            [{ expr := get, connection_uuid := cmd_meta.connection_uuid,
               timestamp := ts,
               drop_after_peek := if drop then some dataflow else none }] })

/-! ### The command dispatcher (`handle_command`, `server.rs:172`) -/

/-- Modelled from the spec: `render::build_dataflow` is the external
dataflow builder (§6), which "registers any arrangements into the trace
registry and any input capabilities into the input registry" (§4.2): a
`Source` registers an input capability under its name (local connectors
get a session-writable capability at the current input time, external
ones a read-only observation) and an empty arranged trace keyed by
`Get{name, typ}`; a `View` registers its arranged trace keyed by
`Get{name, typ}`; a `Sink` registers neither. -/
def build_dataflow (d : Dataflow) (traces : List (RelationExpr × Trace))
    (inputs : List (String × InputCapability)) (input_time : Timestamp) :
    List (RelationExpr × Trace) × List (String × InputCapability) :=
  match d with
  | .Source s =>
    (ainsert (RelationExpr.Get s.name s.typ) { upper := [input_time], entries := [] } traces,
     ainsert s.name
       (match s.connector with
        | .Local => InputCapability.Local input_time []
        | .External => InputCapability.External input_time)
       inputs)
  | .View v =>
    (ainsert (RelationExpr.Get v.name v.typ) { upper := [input_time], entries := [] } traces,
     inputs)
  | .Sink _ => (traces, inputs)

/-- The `DropDataflows` handler body (`server.rs:185`): for each dataflow,
remove it from the input and dataflow registries and, unless it is a
`Sink`, delete the trace keyed by `Get{name, typ}`. -/
def dropDataflows (w : WorkerState) (ds : List Dataflow) : WorkerState :=
  ds.foldl
    (fun w d =>
      let w := { w with
        inputs := aremove d.name w.inputs,
        dataflows := aremove d.name w.dataflows }
      if d.isSink then w
      else { w with traces := aremove (RelationExpr.Get d.name d.typ) w.traces })
    w

/-- The per-capability effect of the downgrade loop (`server.rs:248`): a
Local capability is downgraded to the given time, an External one is
untouched. -/
def downgradeCap (t : Timestamp) : InputCapability → InputCapability
  | .Local _ session => .Local t session
  | .External c => .External c

/-- Downgrade every Local input capability to the given time, leaving
External capabilities untouched (`server.rs:248`). -/
def downgradeLocals (t : Timestamp)
    (inputs : List (String × InputCapability)) : List (String × InputCapability) :=
  inputs.map (fun p => (p.1, downgradeCap t p.2))

/-- `handle_command` (`server.rs:172`).  `none` models a worker panic:
`Insert` against a missing or external input (on worker 0), `Tail`
(`unimplemented!`), and the panics reachable through `sequence_peek`. -/
def handle_command (fuel : Nat) (w : WorkerState) (cmd : DataflowCommand)
    (cmd_meta : CommandMeta) : Option WorkerState :=
  match cmd with
  | .CreateDataflow d =>
    let (traces, inputs) := build_dataflow d w.traces w.inputs w.input_time
    some { w with
      traces := traces, inputs := inputs,
      dataflows := ainsert d.name d w.dataflows }
  | .DropDataflows ds => some (dropDataflows w ds)
  | .PeekExisting dataflow when => sequence_peek fuel w cmd_meta dataflow when false
  | .PeekTransient relation_expr when =>
    let typ := relation_expr.typ
    let dataflow := Dataflow.View
      { name := "<temp_" ++ toString w.transient_view_counter ++ ">",
        relation_expr := relation_expr, typ := typ,
        usesList := relation_expr.usesNames }
    let (traces, inputs) := build_dataflow dataflow w.traces w.inputs w.input_time
    let w := { w with
      traces := traces, inputs := inputs,
      dataflows := ainsert dataflow.name dataflow w.dataflows }
    (sequence_peek fuel w cmd_meta dataflow when true).map
      (fun w => { w with
        transient_view_counter := (w.transient_view_counter + 1) % u64Mod })
  | .Insert name rows =>
    let emitted? : Option (List (String × InputCapability)) :=
      if w.index = 0 then
        match alookup name w.inputs with
        | none => none
        | some (.Local capability session) =>
          some (aupdate name
            (fun _ => .Local capability
              (session ++ rows.map (fun row => (row, w.input_time, (1 : Diff)))))
            w.inputs)
        | some (.External _) => none
      else some w.inputs
    emitted?.map (fun inputs =>
      let input_time := (w.input_time + 1) % u64Mod
      { w with
        input_time := input_time,
        inputs := downgradeLocals input_time inputs })
  | .Tail => none
  | .Shutdown => some { w with inputs := [], traces := [] }

/-- `process_peeks` (`server.rs:340`): intake newly sequenced peeks, run
one retirement pass, and re-enter the dispatcher with a `DropDataflows`
command when any retired peek requested it.  Returns the deliveries made
during the pass. -/
def process_peeks (fuel : Nat) (w : WorkerState) :
    Option (WorkerState × List (Nat × List Row)) :=
  match intakePeeks w.traces w.sequencer with
  | none => none
  | some fresh =>
    match retirePass (w.pending_peeks ++ fresh) with
    | none => none
    | some (retained, delivered, toDrop) =>
      let w := { w with sequencer := [], pending_peeks := retained }
      let w? :=
        if toDrop.isEmpty then some w
        else handle_command fuel w (.DropDataflows toDrop) { connection_uuid := 0 }
      w?.map (fun w => (w, delivered))

/-! ### Concrete states used by the witnesses and counterexamples -/

/-- The dataflow used to exercise C3 concretely. -/
def c3Flow : Dataflow :=
  .Source { name := "s", connector := .Local, typ := [] }

/-- A worker-0 state whose trace registry holds `Get{"s", []}` with upper
frontier `[5]`. -/
def c3State : WorkerState :=
  { index := 0, pending_peeks := [],
    traces := [(.Get "s" [], { upper := [5], entries := [] })],
    inputs := [], input_time := 1, transient_view_counter := 1,
    dataflows := [], sequencer := [] }

/-- A pending entry that is not yet final: upper frontier `{3}`,
timestamp `5`. -/
def c2Keep : PendingPeek × Trace :=
  ({ expr := .Get "s" [], connection_uuid := 7, timestamp := 5,
     drop_after_peek := none }, { upper := [3], entries := [] })

/-- A pending list with the not-yet-final `c2Keep` and one final entry
(upper `{9}`, trace entry `["a"] ↦ [(1, 2)]`, timestamp 5). -/
def c2Pending : List (PendingPeek × Trace) :=
  [c2Keep,
   ({ expr := .Get "s" [], connection_uuid := 8, timestamp := 5,
      drop_after_peek := none }, { upper := [9], entries := [(["a"], [(1, 2)])] })]

/-- The worker-0 state used to exercise C4: a Local input `s` and an
External input `e`, at `input_time` 1. -/
def c4State : WorkerState :=
  { index := 0, pending_peeks := [], traces := [],
    inputs := [("s", .Local 1 []), ("e", .External 7)], input_time := 1,
    transient_view_counter := 1, dataflows := [], sequencer := [] }

/-- The state after `Insert("s", [["r"]])` on `c4State`. -/
def c4Result : WorkerState :=
  { index := 0, pending_peeks := [], traces := [],
    inputs := [("s", .Local 2 [(["r"], 1, 1)]), ("e", .External 7)],
    input_time := 2, transient_view_counter := 1, dataflows := [],
    sequencer := [] }

/-- C6 counterexample state: the dataflow registry holds the bootstrap
source `dual`. -/
def c6State : WorkerState :=
  { index := 0, pending_peeks := [],
    traces := [(.Get "dual" ["x"], { upper := [1], entries := [] })],
    inputs := [("dual", .Local 1 [])], input_time := 2,
    transient_view_counter := 1,
    dataflows := [("dual", .Source { name := "dual", connector := .Local, typ := ["x"] })],
    sequencer := [] }

/-- A worker-0 state with a single External input named `ext`. -/
def c8State : WorkerState :=
  { index := 0, pending_peeks := [], traces := [],
    inputs := [("ext", .External 3)], input_time := 1,
    transient_view_counter := 1, dataflows := [], sequencer := [] }

/-- A sequenced peek naming an expression with no trace. -/
def c8Peek : PendingPeek :=
  { expr := .Get "gone" [], connection_uuid := 2, timestamp := 0,
    drop_after_peek := none }

/-- The dataflow created and dropped in the C7 witness. -/
def c7Flow : Dataflow :=
  .Source { name := "t", connector := .Local, typ := [] }

/-- The trace of the C9 witness: one key `["a"]` inserted once at time 1,
upper frontier `{9}`. -/
def c9Trace : Trace :=
  { upper := [9], entries := [(["a"], [(1, 1)])] }

/-- The peek of the C9 witness, at the final timestamp 5. -/
def c9Peek : PendingPeek :=
  { expr := .Get "s" [], connection_uuid := 4, timestamp := 5,
    drop_after_peek := none }

/-- The dataflow registry of the C5 witness: view `v` uses source `a` and
the empty view `b`. -/
def c5Dataflows : List (String × Dataflow) :=
  [("v", .View ⟨"v", .Opaque 0 [], [], ["a", "b"]⟩),
   ("a", .Source { name := "a", connector := .Local, typ := [] }),
   ("b", .View ⟨"b", .Opaque 1 [], [], []⟩)]

/-- The dataflow peeked in the C5 witness. -/
def c5Flow : Dataflow :=
  .View ⟨"v", .Opaque 0 [], [], ["a", "b"]⟩

/-- The worker-0 state of the C5 witness: source `a` has capability time
4, so the `AfterFlush` timestamp for `v` is 3. -/
def c5State : WorkerState :=
  { index := 0, pending_peeks := [], traces := [],
    inputs := [("a", .Local 4 [])], input_time := 4,
    transient_view_counter := 1, dataflows := c5Dataflows, sequencer := [] }

/-! ### Registry lemmas -/

section ALemmas

variable {κ : Type} {ν : Type} [DecidableEq κ]

theorem aremove_eq_of_not_mem {k : κ} {l : List (κ × ν)}
    (h : k ∉ l.map Prod.fst) : aremove k l = l := by
  induction l with
  | nil => rfl
  | cons p l ih =>
    simp only [List.map_cons, List.mem_cons] at h
    push_neg at h
    simp only [aremove, List.filter_cons]
    rw [if_pos (by simpa using (Ne.symm h.1))]
    exact congrArg _ (ih h.2)

theorem alookup_aupdate_self (k : κ) (f : ν → ν) (l : List (κ × ν)) :
    alookup k (aupdate k f l) = (alookup k l).map f := by
  induction l with
  | nil => rfl
  | cons p l ih =>
    obtain ⟨k', v⟩ := p
    by_cases h : k' = k
    · simp [aupdate, alookup, h]
    · simp [aupdate, alookup, h, ih]

theorem alookup_aupdate_ne {k k' : κ} (f : ν → ν) (l : List (κ × ν))
    (h : k' ≠ k) : alookup k' (aupdate k f l) = alookup k' l := by
  induction l with
  | nil => rfl
  | cons p l ih =>
    obtain ⟨k₀, v⟩ := p
    by_cases hk : k₀ = k
    · subst hk
      simp [aupdate, alookup, Ne.symm h]
    · by_cases hk' : k₀ = k'
      · simp [aupdate, alookup, hk, hk', h]
      · simp [aupdate, alookup, hk, hk', ih]

theorem aremove_ainsert (k : κ) (v : ν) (l : List (κ × ν)) :
    aremove k (ainsert k v l) = aremove k l := by
  simp [ainsert, aremove, List.filter_filter]

theorem alookup_ainsert_self (k : κ) (v : ν) (l : List (κ × ν)) :
    alookup k (ainsert k v l) = some v := by
  simp [ainsert, alookup]

theorem alookup_mem {k : κ} {v : ν} {l : List (κ × ν)}
    (h : alookup k l = some v) : (k, v) ∈ l := by
  induction l with
  | nil => cases h
  | cons p l ih =>
    obtain ⟨k', v'⟩ := p
    rw [alookup] at h
    by_cases hk : k' = k
    · rw [if_pos hk] at h
      cases h
      subst hk
      exact List.mem_cons_self _ _
    · rw [if_neg hk] at h
      exact List.mem_cons_of_mem _ (ih h)

end ALemmas

section OptionMapM

variable {α β γ : Type}

theorem mapM_map_comp (f : α → Option β) (g : β → γ) (l : List α) :
    l.mapM (fun a => (f a).map g) = (l.mapM f).map (List.map g) := by
  rw [← List.mapM'_eq_mapM, ← List.mapM'_eq_mapM]
  induction l with
  | nil => rfl
  | cons a l ih =>
    cases hf : f a with
    | none => simp [List.mapM'_cons, hf]
    | some b =>
      cases hl : l.mapM' f with
      | none => simp [List.mapM'_cons, hf, hl, ih]
      | some bs => simp [List.mapM'_cons, hf, hl, ih]

theorem mapM_mem_of_mem (f : α → Option β) {l : List α} {bs : List β}
    (h : l.mapM f = some bs) {b : β} (hb : b ∈ bs) :
    ∃ a ∈ l, f a = some b := by
  rw [← List.mapM'_eq_mapM] at h
  induction l generalizing bs with
  | nil =>
    simp only [List.mapM'_nil, Option.pure_def, Option.some.injEq] at h
    subst h
    cases hb
  | cons a l ih =>
    rw [List.mapM'_cons] at h
    cases hf : f a with
    | none => rw [hf] at h; simp at h
    | some b' =>
      rw [hf] at h
      cases hl : l.mapM' f with
      | none => rw [hl] at h; simp at h
      | some bs' =>
        rw [hl] at h
        simp only [Option.pure_def, Option.bind_eq_bind, Option.some_bind,
          Option.some.injEq] at h
        subst h
        rcases List.mem_cons.mp hb with rfl | hbs
        · exact ⟨a, List.mem_cons_self _ _, hf⟩
        · rcases ih hl hbs with ⟨a', ha', hfa'⟩
          exact ⟨a', List.mem_cons_of_mem _ ha', hfa'⟩

end OptionMapM

/-! ### Minimum-with-default lemmas (for C5) -/

theorem getD_min?_cons_of_le (a : Nat) (l : List Nat) (ha : a ≤ u64Max) :
    (((a :: l).min?).getD u64Max) = min a ((l.min?).getD u64Max) := by
  rw [List.min?_cons]
  cases hm : l.min? with
  | none => simp [Nat.min_eq_left ha]
  | some b => simp

theorem getD_min?_eq_foldr {l : List Nat} (hb : ∀ x ∈ l, x ≤ u64Max) :
    ((l.min?).getD u64Max) = l.foldr min u64Max := by
  induction l with
  | nil => rfl
  | cons a l ih =>
    rw [getD_min?_cons_of_le a l (hb a (List.mem_cons_self _ _)),
      List.foldr_cons, ih (fun x hx => hb x (List.mem_cons_of_mem _ hx))]

theorem foldr_min_le_max (l : List Nat) : l.foldr min u64Max ≤ u64Max := by
  induction l with
  | nil => exact Nat.le_refl _
  | cons a l ih => exact le_trans (min_le_right _ _) ih

theorem foldr_min_init (l : List Nat) (b : Nat) (hb : b ≤ u64Max) :
    l.foldr min b = min (l.foldr min u64Max) b := by
  induction l with
  | nil => simp [min_eq_right hb]
  | cons a l ih =>
    rw [List.foldr_cons, List.foldr_cons, ih, min_assoc]

theorem foldr_min_flatten (ls : List (List Nat)) :
    (ls.map (fun l => l.foldr min u64Max)).foldr min u64Max =
      (ls.flatten).foldr min u64Max := by
  induction ls with
  | nil => rfl
  | cons l ls ih =>
    rw [List.map_cons, List.foldr_cons, ih, List.flatten_cons,
      List.foldr_append, foldr_min_init l _ (foldr_min_le_max _)]

theorem alookup_downgradeLocals (t : Timestamp) (k : String)
    (l : List (String × InputCapability)) :
    alookup k (downgradeLocals t l) = (alookup k l).map (downgradeCap t) := by
  induction l with
  | nil => rfl
  | cons p l ih =>
    obtain ⟨k', v⟩ := p
    by_cases h : k' = k
    · simp [downgradeLocals, alookup, h]
    · simpa [downgradeLocals, alookup, h] using ih

/-! ### The claims -/

/-- C3: when worker 0 sequences a peek with `PeekWhen::Immediately`, the
chosen peek timestamp is `0` if the target trace's upper frontier is
empty, and `u` saturating-minus `1` if the upper frontier is the
singleton `{u}`; an upper frontier with more than one element fails the
`assert_eq!` (modelled as `none`). -/
theorem immediately_timestamp_choice (fuel : Nat) (w : WorkerState)
    (m : CommandMeta) (d : Dataflow) (drop : Bool) (tr : Trace)
    (h0 : w.index = 0)
    (hl : alookup (RelationExpr.Get d.name d.typ) w.traces = some tr) :
    (tr.upper = [] →
      sequence_peek fuel w m d .Immediately drop =
        some { w with sequencer := w.sequencer ++
          [{ expr := RelationExpr.Get d.name d.typ,
             connection_uuid := m.connection_uuid, timestamp := 0,
             drop_after_peek := if drop then some d else none }] }) ∧
    (∀ u, tr.upper = [u] →
      sequence_peek fuel w m d .Immediately drop =
        some { w with sequencer := w.sequencer ++
          [{ expr := RelationExpr.Get d.name d.typ,
             connection_uuid := m.connection_uuid, timestamp := u - 1,
             drop_after_peek := if drop then some d else none }] }) ∧
    (2 ≤ tr.upper.length →
      sequence_peek fuel w m d .Immediately drop = none) := by
  refine ⟨fun hu => ?_, fun u hu => ?_, fun hu => ?_⟩
  · simp [sequence_peek, h0, hl, hu, immediateTimestamp]
  · simp [sequence_peek, h0, hl, hu, immediateTimestamp]
  · rcases htr : tr.upper with _ | ⟨a, _ | ⟨b, rest⟩⟩
    · rw [htr] at hu; simp at hu
    · rw [htr] at hu; simp at hu
    · simp [sequence_peek, h0, hl, htr, immediateTimestamp]

/-- Witness for C3 at the singleton frontier `{5}`: the chosen timestamp
is `4`. -/
theorem immediately_timestamp_choice_witness :
    sequence_peek 0 c3State { connection_uuid := 9 } c3Flow .Immediately false =
      some { c3State with sequencer :=
        [{ expr := RelationExpr.Get "s" [], connection_uuid := 9,
           timestamp := 4, drop_after_peek := none }] } := by
  simpa using
    (immediately_timestamp_choice 0 c3State { connection_uuid := 9 } c3Flow false
      { upper := [5], entries := [] } rfl rfl).2.1 5 rfl

theorem peekResults_count_of_not_mem {t : Timestamp}
    {entries : List (Row × List (Timestamp × Diff))} {res : List Row} {k : Row}
    (h : peekResults t entries = some res)
    (hk : k ∉ entries.map Prod.fst) : res.count k = 0 := by
  induction entries generalizing res with
  | nil =>
    simp only [peekResults, Option.some.injEq] at h
    simp [← h]
  | cons e rest ih =>
    obtain ⟨key, times⟩ := e
    simp only [List.map_cons, List.mem_cons] at hk
    push_neg at hk
    rw [peekResults] at h
    split at h
    · cases h
    · rcases Option.map_eq_some'.mp h with ⟨res', hrest, rfl⟩
      simp [List.count_append, List.count_replicate, Ne.symm hk.1, ih hrest hk.2]

theorem peekResults_count_of_nodup {t : Timestamp}
    {entries : List (Row × List (Timestamp × Diff))} {res : List Row}
    {k : Row} {times : List (Timestamp × Diff)}
    (h : peekResults t entries = some res)
    (hnodup : (entries.map Prod.fst).Nodup)
    (hmem : (k, times) ∈ entries) :
    res.count k = (accumCopies t times).toNat := by
  induction entries generalizing res with
  | nil => cases hmem
  | cons e rest ih =>
    obtain ⟨key, times'⟩ := e
    simp only [List.map_cons, List.nodup_cons] at hnodup
    rw [peekResults] at h
    split at h
    · cases h
    · rcases Option.map_eq_some'.mp h with ⟨res', hrest, rfl⟩
      rcases List.mem_cons.mp hmem with he | he
      · injection he with h1 h2
        subst h1; subst h2
        simp [List.count_append, List.count_replicate,
          peekResults_count_of_not_mem hrest hnodup.1]
      · have hne : k ≠ key := by
          rintro rfl
          exact hnodup.1 (List.mem_map.mpr ⟨(k, times), he, rfl⟩)
        simp [List.count_append, List.count_replicate, Ne.symm hne,
          ih hrest hnodup.2 he]

theorem retirePass_delivers_mem {pending retained : List (PendingPeek × Trace)}
    {delivered : List (Nat × List Row)} {drops : List Dataflow}
    {peek : PendingPeek} {trace : Trace}
    (h : retirePass pending = some (retained, delivered, drops))
    (hmem : (peek, trace) ∈ pending)
    (hfin : ¬ upperLE trace.upper peek.timestamp) :
    ∃ res, peekResults peek.timestamp trace.entries = some res ∧
      (peek.connection_uuid, res) ∈ delivered := by
  induction pending generalizing retained delivered drops with
  | nil => cases hmem
  | cons e rest ih =>
    obtain ⟨p, tr⟩ := e
    by_cases hu : upperLE tr.upper p.timestamp
    · rw [retirePass, if_pos hu] at h
      rcases Option.map_eq_some'.mp h with ⟨⟨r, d, q⟩, hrest, heq⟩
      simp only [Prod.mk.injEq] at heq
      obtain ⟨-, h2, -⟩ := heq
      subst h2
      rcases List.mem_cons.mp hmem with he | he
      · injection he with h1 h2
        subst h1; subst h2
        exact absurd hu hfin
      · exact ih hrest he
    · rw [retirePass, if_neg hu] at h
      rcases hres : peekResults p.timestamp tr.entries with _ | res
      · rw [hres] at h; cases h
      · rw [hres] at h
        rcases Option.map_eq_some'.mp h with ⟨⟨r, d, q⟩, hrest, heq⟩
        simp only [Prod.mk.injEq] at heq
        obtain ⟨-, h2, -⟩ := heq
        subst h2
        rcases List.mem_cons.mp hmem with he | he
        · injection he with h1 h2
          subst h1; subst h2
          exact ⟨res, hres, List.mem_cons_self _ _⟩
        · rcases ih hrest he with ⟨res', h1, h2⟩
          exact ⟨res', h1, List.mem_cons_of_mem _ h2⟩

/-- C1: for every peek the retirement pass delivers, the delivered result
is the multiset in which each key of the peek's trace appears exactly
`copies` times, `copies` being the sum of the diffs of the key's entries
with `time ≤ peek.timestamp`; keys accumulating to `0` (and keys not in
the trace) do not appear. -/
theorem retired_peek_result_multiset
    (pending retained : List (PendingPeek × Trace))
    (delivered : List (Nat × List Row)) (drops : List Dataflow)
    (peek : PendingPeek) (trace : Trace)
    (hrun : retirePass pending = some (retained, delivered, drops))
    (hmem : (peek, trace) ∈ pending)
    (hfin : ¬ upperLE trace.upper peek.timestamp)
    (hnodup : (trace.entries.map Prod.fst).Nodup) :
    ∃ res, peekResults peek.timestamp trace.entries = some res ∧
      (peek.connection_uuid, res) ∈ delivered ∧
      (∀ k times, (k, times) ∈ trace.entries →
        res.count k = (accumCopies peek.timestamp times).toNat) ∧
      (∀ k times, (k, times) ∈ trace.entries →
        accumCopies peek.timestamp times = 0 → k ∉ res) ∧
      (∀ k, k ∉ trace.entries.map Prod.fst → res.count k = 0) := by
  rcases retirePass_delivers_mem hrun hmem hfin with ⟨res, hres, hdel⟩
  refine ⟨res, hres, hdel, ?_, ?_, ?_⟩
  · exact fun k times ht => peekResults_count_of_nodup hres hnodup ht
  · intro k times ht hz
    have := peekResults_count_of_nodup hres hnodup ht
    rw [hz] at this
    exact List.count_eq_zero.mp (by simpa using this)
  · exact fun k hk => peekResults_count_of_not_mem hres hk

/-- C2: one retirement pass keeps exactly the entries whose trace's upper
frontier has an element `≤` the peek timestamp, and delivers (removing
the entry) exactly the others, in order; in particular no peek is
delivered while its timestamp is not final. -/
theorem retirement_keeps_iff_not_final
    (pending retained : List (PendingPeek × Trace))
    (delivered : List (Nat × List Row)) (drops : List Dataflow)
    (h : retirePass pending = some (retained, delivered, drops)) :
    retained = pending.filter (fun e => upperLE e.2.upper e.1.timestamp) ∧
    delivered.map Prod.fst =
      (pending.filter (fun e => !upperLE e.2.upper e.1.timestamp)).map
        (fun e => e.1.connection_uuid) := by
  induction pending generalizing retained delivered drops with
  | nil =>
    simp only [retirePass, Option.some.injEq, Prod.mk.injEq] at h
    obtain ⟨h1, h2, h3⟩ := h
    subst h1; subst h2; subst h3
    simp
  | cons e rest ih =>
    obtain ⟨p, tr⟩ := e
    by_cases hu : upperLE tr.upper p.timestamp
    · rw [retirePass, if_pos hu] at h
      rcases Option.map_eq_some'.mp h with ⟨⟨r, d, q⟩, hrest, heq⟩
      simp only [Prod.mk.injEq] at heq
      obtain ⟨h1, h2, h3⟩ := heq
      subst h1; subst h2; subst h3
      obtain ⟨ih1, ih2⟩ := ih _ _ _ hrest
      constructor
      · rw [List.filter_cons, if_pos (by simpa using hu), ← ih1]
      · rw [List.filter_cons, if_neg (by simpa using hu), ih2]
    · rw [retirePass, if_neg hu] at h
      rcases hres : peekResults p.timestamp tr.entries with _ | res
      · rw [hres] at h; cases h
      · rw [hres] at h
        rcases Option.map_eq_some'.mp h with ⟨⟨r, d, q⟩, hrest, heq⟩
        simp only [Prod.mk.injEq] at heq
        obtain ⟨h1, h2, h3⟩ := heq
        subst h1; subst h2; subst h3
        obtain ⟨ih1, ih2⟩ := ih _ _ _ hrest
        constructor
        · rw [List.filter_cons, if_neg (by simpa using hu), ih1]
        · rw [List.filter_cons, if_pos (by simpa using hu)]
          simpa using ih2

/-- Witness for C2 on `c2Pending`: the first entry is retained, the
second delivered. -/
theorem retirement_keeps_iff_not_final_witness :
    [c2Keep] =
      c2Pending.filter (fun e => upperLE e.2.upper e.1.timestamp) ∧
    ([((8 : Nat), [["a"], ["a"]])].map Prod.fst) =
      (c2Pending.filter (fun e => !upperLE e.2.upper e.1.timestamp)).map
        (fun e => e.1.connection_uuid) :=
  retirement_keeps_iff_not_final c2Pending [c2Keep]
    [(8, [["a"], ["a"]])] [] (by rfl)

/-- Witness for C1 on `c2Pending`: the final entry's delivered result is
`[["a"], ["a"]]`, i.e. key `["a"]` with multiplicity `2`. -/
theorem retired_peek_result_multiset_witness :
    ∃ res, peekResults 5 [(["a"], [((1 : Timestamp), (2 : Diff))])] = some res ∧
      ((8 : Nat), res) ∈ [((8 : Nat), [["a"], ["a"]])] ∧
      (∀ k times, (k, times) ∈ [(["a"], [((1 : Timestamp), (2 : Diff))])] →
        res.count k = (accumCopies 5 times).toNat) ∧
      (∀ k times, (k, times) ∈ [(["a"], [((1 : Timestamp), (2 : Diff))])] →
        accumCopies 5 times = 0 → k ∉ res) ∧
      (∀ k, k ∉ [(["a"], [((1 : Timestamp), (2 : Diff))])].map Prod.fst →
        res.count k = 0) :=
  retired_peek_result_multiset c2Pending [c2Keep]
    [(8, [["a"], ["a"]])] []
    { expr := .Get "s" [], connection_uuid := 8, timestamp := 5,
      drop_after_peek := none }
    { upper := [9], entries := [(["a"], [(1, 2)])] }
    (by rfl) (by decide) (by decide) (by decide)

/-- C4: handling `Insert(name, rows)`, only worker 0 emits the rows (each
with diff `+1` at the current `input_time`) into the named Local input;
every worker then increments `input_time` by exactly `1` (no overflow
assumed) and downgrades every Local capability to the new `input_time`,
leaving External capabilities unchanged; `input_time` is thus
non-decreasing, starting from `1` in the initial state. -/
theorem insert_command_effects (fuel : Nat) (w : WorkerState) (name : String)
    (rows : List Row) (m : CommandMeta) (w' : WorkerState)
    (hov : w.input_time + 1 < u64Mod)
    (h : handle_command fuel w (.Insert name rows) m = some w') :
    w'.input_time = w.input_time + 1 ∧
    w.input_time ≤ w'.input_time ∧
    (∀ k t, alookup k w.inputs = some (.External t) →
      alookup k w'.inputs = some (.External t)) ∧
    (w.index ≠ 0 →
      ∀ k t session, alookup k w.inputs = some (.Local t session) →
        alookup k w'.inputs = some (.Local w'.input_time session)) ∧
    (w.index = 0 →
      ∃ cap session, alookup name w.inputs = some (.Local cap session) ∧
        alookup name w'.inputs = some (.Local w'.input_time
          (session ++ rows.map (fun row => (row, w.input_time, (1 : Diff))))) ∧
        (∀ k t s, k ≠ name → alookup k w.inputs = some (.Local t s) →
          alookup k w'.inputs = some (.Local w'.input_time s))) ∧
    (∀ i, (WorkerState.initial i).input_time = 1) := by
  have hmod : (w.input_time + 1) % u64Mod = w.input_time + 1 :=
    Nat.mod_eq_of_lt hov
  by_cases hidx : w.index = 0
  · rcases hlk : alookup name w.inputs with _ | cap
    · simp [handle_command, hidx, hlk] at h
    · rcases cap with ⟨cap, session⟩ | t
      · simp only [handle_command, hidx, if_pos, hlk, if_true, Option.map_some',
          Option.some.injEq] at h
        subst h
        refine ⟨by simpa using hmod, by simp [hmod], ?_, ?_, ?_, fun i => rfl⟩
        · intro k t hk
          have hne : k ≠ name := by
            rintro rfl
            rw [hk] at hlk
            cases hlk
          simp only [alookup_downgradeLocals, alookup_aupdate_ne _ _ hne, hk,
            Option.map_some']
          rfl
        · intro hc
          exact absurd hidx hc
        · intro _
          refine ⟨cap, session, rfl, ?_, ?_⟩
          · simp [alookup_downgradeLocals, alookup_aupdate_self, hlk, hmod,
              downgradeCap]
          · intro k t s hne hk
            simp only [alookup_downgradeLocals, alookup_aupdate_ne _ _ hne, hk,
              Option.map_some']
            simp [downgradeCap, hmod]
      · simp [handle_command, hidx, hlk] at h
  · simp only [handle_command, if_neg hidx, Option.map_some',
      Option.some.injEq] at h
    subst h
    refine ⟨by simpa using hmod, by simp [hmod], ?_, ?_, ?_, fun i => rfl⟩
    · intro k t hk
      simp only [alookup_downgradeLocals, hk, Option.map_some']
      rfl
    · intro _ k t session hk
      simp only [alookup_downgradeLocals, hk, Option.map_some']
      simp [downgradeCap, hmod]
    · intro hc
      exact absurd hc hidx

/-- Witness for C4 on `c4State`: the row is emitted at time 1 with diff
`+1`, `input_time` advances to 2, the Local capability is downgraded to 2
and the External one is untouched. -/
theorem insert_command_effects_witness :
    c4Result.input_time = c4State.input_time + 1 ∧
    alookup "e" c4Result.inputs = some (.External 7) ∧
    ∃ cap session, alookup "s" c4State.inputs = some (.Local cap session) ∧
      alookup "s" c4Result.inputs = some (.Local c4Result.input_time
        (session ++ [["r"]].map (fun row => (row, c4State.input_time, (1 : Diff))))) := by
  have h := insert_command_effects 0 c4State "s" [["r"]] { connection_uuid := 1 }
    c4Result (by decide) rfl
  rcases h.2.2.2.2.1 rfl with ⟨cap, session, h1, h2, h3⟩
  exact ⟨h.1, h.2.2.1 "e" 7 rfl, cap, session, h1, h2⟩

/-- C6 counterexample: handling `Shutdown` does not clear the dataflow
registry — in `c6State` the entry for `dual` survives, refuting the claim
that all three registries are empty after shutdown. -/
theorem shutdown_keeps_dataflows_counterexample :
    (handle_command 0 c6State .Shutdown { connection_uuid := 0 }).map
      WorkerState.dataflows ≠ some [] := by decide

/-- C6 (amended): handling `Shutdown` clears the input registry and the
trace registry, but leaves the dataflow registry unchanged (nothing after
the loop in `run` clears it either). -/
theorem shutdown_clears_input_and_trace_registries (fuel : Nat)
    (w : WorkerState) (m : CommandMeta) :
    ∃ w', handle_command fuel w .Shutdown m = some w' ∧
      w'.inputs = [] ∧ w'.traces = [] ∧ w'.dataflows = w.dataflows :=
  ⟨{ w with inputs := [], traces := [] }, rfl, rfl, rfl, rfl⟩

/-- C8: contract violations are fatal (modelled as `none`): on worker 0,
an `Insert` naming an input absent from the input registry panics, as
does an `Insert` naming an External input; and during peek-processor
intake, a sequenced peek whose expression has no entry in the trace
registry panics. -/
theorem contract_violations_panic :
    (∀ (fuel : Nat) (w : WorkerState) (name : String) (rows : List Row)
        (m : CommandMeta), w.index = 0 → alookup name w.inputs = none →
        handle_command fuel w (.Insert name rows) m = none) ∧
    (∀ (fuel : Nat) (w : WorkerState) (name : String) (rows : List Row)
        (m : CommandMeta) (t : Timestamp), w.index = 0 →
        alookup name w.inputs = some (.External t) →
        handle_command fuel w (.Insert name rows) m = none) ∧
    (∀ (traces : List (RelationExpr × Trace)) (seq : List PendingPeek)
        (p : PendingPeek), p ∈ seq → alookup p.expr traces = none →
        intakePeeks traces seq = none) := by
  refine ⟨fun fuel w name rows m h0 hl => ?_,
          fun fuel w name rows m t h0 hl => ?_,
          fun traces seq p hmem hl => ?_⟩
  · simp [handle_command, h0, hl]
  · simp [handle_command, h0, hl]
  · induction seq with
    | nil => cases hmem
    | cons q seq ih =>
      rcases List.mem_cons.mp hmem with h | h
      · subst h
        simp [intakePeeks, hl]
      · cases hq : alookup q.expr traces with
        | none => simp [intakePeeks, hq]
        | some tr => simp [intakePeeks, hq, ih h]

/-- Witness for C8: the three violations panic on concrete states. -/
theorem contract_violations_panic_witness :
    handle_command 0 c8State (.Insert "absent" [["r"]]) { connection_uuid := 1 } = none ∧
    handle_command 0 c8State (.Insert "ext" [["r"]]) { connection_uuid := 1 } = none ∧
    intakePeeks [] [c8Peek] = none :=
  ⟨contract_violations_panic.1 0 c8State "absent" [["r"]] { connection_uuid := 1 }
      rfl rfl,
   contract_violations_panic.2.1 0 c8State "ext" [["r"]] { connection_uuid := 1 } 3
      rfl rfl,
   contract_violations_panic.2.2 [] [c8Peek] c8Peek (List.mem_singleton.mpr rfl) rfl⟩

/-- C7 (with `build_dataflow` modelled from the spec): for a non-Sink
dataflow whose name is fresh in all three registries, `CreateDataflow(d)`
followed by `DropDataflows([d])` returns the worker to its prior state;
and dropping a dataflow that was never installed is already a no-op
(`DropDataflows` is tolerant of absent entries). -/
theorem create_then_drop_roundtrip (fuel : Nat) (w : WorkerState)
    (m₁ m₂ : CommandMeta) (d : Dataflow)
    (hns : d.isSink = false)
    (hd : d.name ∉ w.dataflows.map Prod.fst)
    (hi : d.name ∉ w.inputs.map Prod.fst)
    (ht : RelationExpr.Get d.name d.typ ∉ w.traces.map Prod.fst) :
    (∃ w₁, handle_command fuel w (.CreateDataflow d) m₁ = some w₁ ∧
      handle_command fuel w₁ (.DropDataflows [d]) m₂ = some w) ∧
    handle_command fuel w (.DropDataflows [d]) m₂ = some w := by
  rcases d with s | v | s
  case Sink => simp [Dataflow.isSink] at hns
  case Source =>
    simp only [Dataflow.name, Dataflow.typ] at hd hi ht
    constructor
    · refine ⟨_, rfl, ?_⟩
      simp only [handle_command, build_dataflow, dropDataflows, List.foldl_cons,
        List.foldl_nil, Dataflow.isSink, Dataflow.name, Dataflow.typ,
        Bool.false_eq_true, if_false, Option.some.injEq]
      rw [aremove_ainsert, aremove_ainsert, aremove_ainsert,
        aremove_eq_of_not_mem hi, aremove_eq_of_not_mem hd,
        aremove_eq_of_not_mem ht]
    · simp only [handle_command, dropDataflows, List.foldl_cons, List.foldl_nil,
        Dataflow.isSink, Dataflow.name, Dataflow.typ, Bool.false_eq_true,
        if_false, Option.some.injEq]
      rw [aremove_eq_of_not_mem hi, aremove_eq_of_not_mem hd,
        aremove_eq_of_not_mem ht]
  case View =>
    simp only [Dataflow.name, Dataflow.typ] at hd hi ht
    constructor
    · refine ⟨_, rfl, ?_⟩
      simp only [handle_command, build_dataflow, dropDataflows, List.foldl_cons,
        List.foldl_nil, Dataflow.isSink, Dataflow.name, Dataflow.typ,
        Bool.false_eq_true, if_false, Option.some.injEq]
      rw [aremove_ainsert, aremove_ainsert, aremove_eq_of_not_mem hi,
        aremove_eq_of_not_mem hd, aremove_eq_of_not_mem ht]
    · simp only [handle_command, dropDataflows, List.foldl_cons, List.foldl_nil,
        Dataflow.isSink, Dataflow.name, Dataflow.typ, Bool.false_eq_true,
        if_false, Option.some.injEq]
      rw [aremove_eq_of_not_mem hi, aremove_eq_of_not_mem hd,
        aremove_eq_of_not_mem ht]

/-- Witness for C7: creating and dropping the fresh source `t` on the
initial worker state restores the initial state. -/
theorem create_then_drop_roundtrip_witness :
    (∃ w₁, handle_command 0 (WorkerState.initial 0) (.CreateDataflow c7Flow)
        { connection_uuid := 1 } = some w₁ ∧
      handle_command 0 w₁ (.DropDataflows [c7Flow]) { connection_uuid := 1 } =
        some (WorkerState.initial 0)) ∧
    handle_command 0 (WorkerState.initial 0) (.DropDataflows [c7Flow])
      { connection_uuid := 1 } = some (WorkerState.initial 0) :=
  create_then_drop_roundtrip 0 (WorkerState.initial 0) { connection_uuid := 1 }
    { connection_uuid := 1 } c7Flow rfl (by simp [WorkerState.initial])
    (by simp [WorkerState.initial]) (by simp [WorkerState.initial])

theorem peekResults_total_of_nonneg {t : Timestamp}
    {entries : List (Row × List (Timestamp × Diff))}
    (h : ∀ k times, (k, times) ∈ entries → 0 ≤ accumCopies t times) :
    ∃ res, peekResults t entries = some res := by
  induction entries with
  | nil => exact ⟨[], rfl⟩
  | cons e rest ih =>
    obtain ⟨k, times⟩ := e
    rcases ih (fun k' ts hm => h k' ts (List.mem_cons_of_mem _ hm)) with
      ⟨res, hres⟩
    refine ⟨List.replicate (accumCopies t times).toNat k ++ res, ?_⟩
    simp only [peekResults]
    rw [if_neg (not_lt.mpr (h k times (List.mem_cons_self _ _))), hres]
    rfl

/-- C9 (trace contract modelled from the spec §3: an arrangement stores
"records ... with multiplicities", so the diffs of a key accumulate, at
every timestamp, to the key's multiplicity in the represented multiset —
a natural number): for a peek whose timestamp is final, every key's
accumulated `copies` is `≥ 0`, so the `assert!(copies >= 0)` of the
retirement pass cannot fire and retiring the peek succeeds. -/
theorem final_peek_copies_nonneg (peek : PendingPeek) (trace : Trace)
    (hfin : ¬ upperLE trace.upper peek.timestamp)
    (hrep : ∀ k times, (k, times) ∈ trace.entries →
      ∃ m : Timestamp → Nat, ∀ s, accumCopies s times = (m s : Int)) :
    (∀ k times, (k, times) ∈ trace.entries →
      0 ≤ accumCopies peek.timestamp times) ∧
    retirePass [(peek, trace)] ≠ none := by
  have hnn : ∀ k times, (k, times) ∈ trace.entries →
      0 ≤ accumCopies peek.timestamp times := by
    intro k times hm
    rcases hrep k times hm with ⟨mm, hmm⟩
    rw [hmm peek.timestamp]
    exact Int.natCast_nonneg _
  refine ⟨hnn, ?_⟩
  rcases peekResults_total_of_nonneg hnn with ⟨res, hres⟩
  rw [retirePass, if_neg hfin, hres]
  simp [retirePass]

/-- Witness for C9: the singleton trace `c9Trace` (one insertion of
`["a"]` at time 1) satisfies the multiset contract, so the peek at the
final time 5 retires without tripping the assertion. -/
theorem final_peek_copies_nonneg_witness :
    (∀ k times, (k, times) ∈ c9Trace.entries →
      0 ≤ accumCopies c9Peek.timestamp times) ∧
    retirePass [(c9Peek, c9Trace)] ≠ none :=
  final_peek_copies_nonneg c9Peek c9Trace (by decide)
    (by
      intro k times hm
      simp only [c9Trace, List.mem_singleton, Prod.mk.injEq] at hm
      obtain ⟨-, rfl⟩ := hm
      refine ⟨fun s => if 1 ≤ s then 1 else 0, fun s => ?_⟩
      by_cases h1 : 1 ≤ s <;> simp [accumCopies, h1])

theorem sequence_peek_nonzero {fuel : Nat} {w : WorkerState}
    {m : CommandMeta} {dataflow : Dataflow} {when : PeekWhen} {drop : Bool}
    (h : w.index ≠ 0) :
    sequence_peek fuel w m dataflow when drop = some w := by
  rw [sequence_peek, if_pos h]

theorem sequence_peek_eq_of_nonzero {fuel : Nat} {w : WorkerState}
    {m : CommandMeta} {dataflow : Dataflow} {when : PeekWhen} {drop : Bool}
    {w' : WorkerState}
    (h : sequence_peek fuel w m dataflow when drop = some w')
    (hne : w.index ≠ 0) : w' = w := by
  rw [sequence_peek_nonzero hne] at h
  cases h
  rfl

theorem sequence_peek_zero_pushes {fuel : Nat} {w : WorkerState}
    {m : CommandMeta} {dataflow : Dataflow} {when : PeekWhen} {drop : Bool}
    {w' : WorkerState}
    (h : sequence_peek fuel w m dataflow when drop = some w')
    (h0 : w.index = 0) :
    ∃ ts, w' = { w with sequencer := w.sequencer ++
      [{ expr := RelationExpr.Get dataflow.name dataflow.typ,
         connection_uuid := m.connection_uuid, timestamp := ts,
         drop_after_peek := if drop then some dataflow else none }] } := by
  have h0' : ¬ w.index ≠ 0 := by simp [h0]
  simp only [sequence_peek, if_neg h0'] at h
  rcases Option.map_eq_some'.mp h with ⟨ts, _, hw⟩
  exact ⟨ts, hw.symm⟩

/-- C10: handling `PeekTransient` installs the synthesized View, named
from the current `transient_view_counter`, into the dataflow and trace
registries and increments the counter by exactly 1 (no overflow assumed)
on every worker regardless of index — so the name synthesized for the
k-th `PeekTransient` is identical on all workers — while only worker 0
pushes a `PendingPeek` into the sequencer; `sequence_peek` returns early
on other workers, leaving the sequencer unchanged. -/
theorem peek_transient_effects (fuel : Nat) (w : WorkerState)
    (m : CommandMeta) (expr : RelationExpr) (when : PeekWhen)
    (hov : w.transient_view_counter + 1 < u64Mod) :
    (w.index ≠ 0 → ∃ w',
      handle_command fuel w (.PeekTransient expr when) m = some w' ∧
      w'.sequencer = w.sequencer ∧
      alookup ("<temp_" ++ toString w.transient_view_counter ++ ">")
          w'.dataflows =
        some (Dataflow.View ⟨"<temp_" ++ toString w.transient_view_counter ++
          ">", expr, expr.typ, expr.usesNames⟩) ∧
      alookup (RelationExpr.Get
          ("<temp_" ++ toString w.transient_view_counter ++ ">") expr.typ)
          w'.traces = some { upper := [w.input_time], entries := [] } ∧
      w'.transient_view_counter = w.transient_view_counter + 1) ∧
    (∀ w', handle_command fuel w (.PeekTransient expr when) m = some w' →
      alookup ("<temp_" ++ toString w.transient_view_counter ++ ">")
          w'.dataflows =
        some (Dataflow.View ⟨"<temp_" ++ toString w.transient_view_counter ++
          ">", expr, expr.typ, expr.usesNames⟩) ∧
      w'.transient_view_counter = w.transient_view_counter + 1 ∧
      (w.index = 0 → ∃ p, w'.sequencer = w.sequencer ++ [p] ∧
        p.expr = RelationExpr.Get
          ("<temp_" ++ toString w.transient_view_counter ++ ">") expr.typ ∧
        p.connection_uuid = m.connection_uuid ∧
        p.drop_after_peek = some (Dataflow.View
          ⟨"<temp_" ++ toString w.transient_view_counter ++ ">", expr,
            expr.typ, expr.usesNames⟩))) := by
  have hmod : (w.transient_view_counter + 1) % u64Mod =
      w.transient_view_counter + 1 := Nat.mod_eq_of_lt hov
  constructor
  · intro hne
    refine ⟨{ w with
        traces := ainsert (RelationExpr.Get
            ("<temp_" ++ toString w.transient_view_counter ++ ">") expr.typ)
          { upper := [w.input_time], entries := [] } w.traces,
        dataflows := ainsert
          ("<temp_" ++ toString w.transient_view_counter ++ ">")
          (Dataflow.View ⟨"<temp_" ++ toString w.transient_view_counter ++
            ">", expr, expr.typ, expr.usesNames⟩) w.dataflows,
        transient_view_counter := (w.transient_view_counter + 1) % u64Mod },
      ?_, rfl, alookup_ainsert_self _ _ _, alookup_ainsert_self _ _ _,
      by simpa using hmod⟩
    simp [handle_command, build_dataflow, sequence_peek, hne,
      Dataflow.name, Dataflow.typ]
  · intro w' h
    by_cases hz : w.index = 0
    · simp only [handle_command, build_dataflow, Dataflow.name,
        Dataflow.typ] at h
      rcases Option.map_eq_some'.mp h with ⟨w₃, hsp, hw'⟩
      rcases sequence_peek_zero_pushes hsp hz with ⟨ts, rfl⟩
      subst hw'
      refine ⟨alookup_ainsert_self _ _ _, by simpa using hmod, fun _ => ?_⟩
      exact ⟨_, rfl, rfl, rfl, rfl⟩
    · simp only [handle_command, build_dataflow, Dataflow.name,
        Dataflow.typ] at h
      rcases Option.map_eq_some'.mp h with ⟨w₃, hsp, hw'⟩
      obtain rfl := sequence_peek_eq_of_nonzero hsp hz
      subst hw'
      exact ⟨alookup_ainsert_self _ _ _, by simpa using hmod,
        fun h0 => absurd h0 hz⟩

/-- Witness for C10 on a worker with index 2: the view `<temp_1>` is
installed, the counter advances to 2, and the sequencer stays empty. -/
theorem peek_transient_effects_witness :
    ∃ w', handle_command 0 (WorkerState.initial 2)
        (.PeekTransient (.Get "s" []) (.AtTimestamp 3))
        { connection_uuid := 5 } = some w' ∧
      w'.sequencer = [] ∧
      alookup "<temp_1>" w'.dataflows =
        some (Dataflow.View ⟨"<temp_1>", .Get "s" [], [], ["s"]⟩) ∧
      w'.transient_view_counter = 2 := by
  have h := peek_transient_effects 0 (WorkerState.initial 2)
    { connection_uuid := 5 } (.Get "s" []) (.AtTimestamp 3) (by decide)
  rcases h.1 (by decide) with ⟨w', hw, hseq, hdfl, htr, hc⟩
  exact ⟨w', hw, hseq, hdfl, hc⟩

theorem sourceTimes_bounded {dataflows : List (String × Dataflow)}
    {inputs : List (String × InputCapability)}
    (hb : ∀ p ∈ inputs, (Prod.snd p).time ≤ u64Max) :
    ∀ (fuel : Nat) (name : String) (l : List Timestamp),
      sourceTimes dataflows inputs fuel name = some l →
      ∀ x ∈ l, x ≤ u64Max := by
  intro fuel
  induction fuel with
  | zero => intro name l h; cases h
  | succ fuel ih =>
    intro name l h x hx
    rw [sourceTimes] at h
    rcases hd : alookup name dataflows with _ | df
    · rw [hd] at h; cases h
    · rw [hd] at h
      rcases df with s | v | s
      · rcases hi : alookup name inputs with _ | cap
        · rw [hi] at h; cases h
        · rw [hi] at h
          cases h
          obtain rfl := List.mem_singleton.mp hx
          exact hb (name, cap) (alookup_mem hi)
      · rcases Option.map_eq_some'.mp h with ⟨ls, hmapM, rfl⟩
        rcases List.mem_flatten.mp hx with ⟨l', hl', hxl'⟩
        rcases mapM_mem_of_mem _ hmapM hl' with ⟨n, _, hst⟩
        exact ih n l' hst x hxl'
      · cases h

theorem root_input_time_eq_sourceTimes (dataflows : List (String × Dataflow))
    (inputs : List (String × InputCapability))
    (hb : ∀ p ∈ inputs, (Prod.snd p).time ≤ u64Max) :
    ∀ (fuel : Nat) (name : String),
      root_input_time dataflows inputs fuel name =
        (sourceTimes dataflows inputs fuel name).map
          (fun l => (l.min?).getD u64Max) := by
  intro fuel
  induction fuel with
  | zero => intro name; rfl
  | succ fuel ih =>
    intro name
    rw [root_input_time, sourceTimes]
    rcases hd : alookup name dataflows with _ | df
    · rfl
    · rcases df with s | v | s
      · rcases hi : alookup name inputs with _ | cap
        · rfl
        · simp
      · have hfun : root_input_time dataflows inputs fuel =
            fun n => (sourceTimes dataflows inputs fuel n).map
              (fun l => (l.min?).getD u64Max) := funext ih
        dsimp only
        rw [hfun, mapM_map_comp]
        cases hm : v.usesList.mapM (sourceTimes dataflows inputs fuel) with
        | none => rfl
        | some ls =>
          simp only [Option.map_some', Option.some.injEq]
          have hbls : ∀ l ∈ ls, ∀ x ∈ l, x ≤ u64Max := by
            intro l hl x hx
            rcases mapM_mem_of_mem _ hm hl with ⟨n, _, hst⟩
            exact sourceTimes_bounded hb fuel n l hst x hx
          have h1 : ∀ y ∈ ls.map (fun l => (l.min?).getD u64Max),
              y ≤ u64Max := by
            intro y hy
            rcases List.mem_map.mp hy with ⟨l, hl, rfl⟩
            rw [getD_min?_eq_foldr (hbls l hl)]
            exact foldr_min_le_max l
          have h2 : ∀ x ∈ ls.flatten, x ≤ u64Max := by
            intro x hx
            rcases List.mem_flatten.mp hx with ⟨l, hl, hxl⟩
            exact hbls l hl x hxl
          rw [getD_min?_eq_foldr h1, getD_min?_eq_foldr h2]
          rw [List.map_congr_left
            (fun l hl => getD_min?_eq_foldr (hbls l hl))]
          exact foldr_min_flatten ls
      · rfl

/-- C5: when worker 0 sequences a peek with `PeekWhen::AfterFlush`, the
chosen timestamp is the minimum, over the Source inputs transitively
reachable through View `uses()`, of the source capability's current
time, saturating-minus 1 — where the minimum of an empty collection
(e.g. below a View with no uses) is `u64::max_value()`.  `sourceTimes`
collects exactly those reachable capability times; capability times are
`u64` values (`≤ u64Max`). -/
theorem after_flush_timestamp (fuel : Nat) (w : WorkerState)
    (m : CommandMeta) (d : Dataflow) (drop : Bool) (w' : WorkerState)
    (h0 : w.index = 0)
    (hb : ∀ p ∈ w.inputs, (Prod.snd p).time ≤ u64Max)
    (h : sequence_peek fuel w m d .AfterFlush drop = some w') :
    ∃ l, sourceTimes w.dataflows w.inputs fuel d.name = some l ∧
      w' = { w with sequencer := w.sequencer ++
        [{ expr := RelationExpr.Get d.name d.typ,
           connection_uuid := m.connection_uuid,
           timestamp := ((l.min?).getD u64Max) - 1,
           drop_after_peek := if drop then some d else none }] } := by
  have h0' : ¬ w.index ≠ 0 := by simp [h0]
  simp only [sequence_peek, if_neg h0',
    root_input_time_eq_sourceTimes w.dataflows w.inputs hb fuel] at h
  rcases Option.map_eq_some'.mp h with ⟨ts, hts, hw⟩
  rcases Option.map_eq_some'.mp hts with ⟨r, hr, hts2⟩
  rcases Option.map_eq_some'.mp hr with ⟨l, hl, hrl⟩
  subst hrl
  subst hts2
  subst hw
  exact ⟨l, hl, rfl⟩

/-- Witness for C5 on `c5State`: view `v` reaches source `a` (time 4)
and the empty view `b` (minimum `u64::max_value()`), so the chosen
timestamp is `4 - 1 = 3`. -/
theorem after_flush_timestamp_witness :
    ∃ l, sourceTimes c5State.dataflows c5State.inputs 2 c5Flow.name =
        some l ∧
      ({ c5State with sequencer :=
          [{ expr := RelationExpr.Get "v" [], connection_uuid := 6,
             timestamp := 3, drop_after_peek := none }] } : WorkerState) =
        { c5State with sequencer := c5State.sequencer ++
          [{ expr := RelationExpr.Get c5Flow.name c5Flow.typ,
             connection_uuid := 6,
             timestamp := ((l.min?).getD u64Max) - 1,
             drop_after_peek := if false then some c5Flow else none }] } :=
  after_flush_timestamp 2 c5State { connection_uuid := 6 } c5Flow false
    { c5State with sequencer :=
      [{ expr := RelationExpr.Get "v" [], connection_uuid := 6,
         timestamp := 3, drop_after_peek := none }] }
    rfl (by decide) (by rfl)

end Materialize
